import Mathlib

/-!
Verification of the coupon-validity subsystem of kart-challenge
(internal/coupons/rocks_manager.go).

The Go source contains two interchangeable backends in package coupons:
  - a volatile backend: a Manager holding a counts map rebuilt from three
    gzip files by reloadOnce / fastReadGzipIntoSet;
  - a persistent backend: a Manager querying a RocksDB with column
    families file1, file2, file3.

Strings are modelled as lists of characters (Go strings are UTF-8 byte
sequences; Go len is the byte length, modelled by goLen below via UTF-8
sizes).  strings.ToUpper is modelled by its ASCII fast path (lowercase
ASCII letters are mapped up, every other character is unchanged), and
strings.TrimSpace by dropping characters satisfying unicode.IsSpace from
both ends, with the full White_Space code-point list of unicode.IsSpace.
-/

namespace Coupons

abbrev GoStr := List Char

/-- Character-level test of Go's unicode.IsSpace: true exactly on the
White_Space code points U+0009..U+000D, U+0020, U+0085, U+00A0, U+1680,
U+2000..U+200A, U+2028, U+2029, U+202F, U+205F, U+3000. -/
def goIsSpace (c : Char) : Bool :=
  decide ((9 ≤ c.toNat ∧ c.toNat ≤ 13) ∨ c.toNat = 32 ∨ c.toNat = 133 ∨
    c.toNat = 160 ∨ c.toNat = 5760 ∨ (8192 ≤ c.toNat ∧ c.toNat ≤ 8202) ∨
    c.toNat = 8232 ∨ c.toNat = 8233 ∨ c.toNat = 8239 ∨ c.toNat = 8287 ∨
    c.toNat = 12288)

/-- Character-level case mapping of Go's strings.ToUpper, modelled by its
ASCII path: a lowercase ASCII letter (code 97..122) is shifted down by 32,
every other character is returned unchanged. -/
def goUpperChar (c : Char) : Char :=
  if 97 ≤ c.toNat ∧ c.toNat ≤ 122 then Char.ofNat (c.toNat - 32) else c

/-- Model of strings.ToUpper. -/
def goToUpper (s : GoStr) : GoStr := s.map goUpperChar

/-- Model of strings.TrimSpace: drop unicode.IsSpace characters from the
front, then from the back. -/
def goTrimSpace (s : GoStr) : GoStr :=
  ((s.dropWhile goIsSpace).reverse.dropWhile goIsSpace).reverse

/-- The normalization applied by both backends and by ingestion:
strings.TrimSpace(strings.ToUpper(s)). -/
def normalize (s : GoStr) : GoStr := goTrimSpace (goToUpper s)

/-- Go len of a string: its UTF-8 byte length. -/
def goLen (s : GoStr) : Nat := (s.map Char.utf8Size).sum


-- ---------------------------------------------------------------------------
-- Volatile backend: Manager with a counts map rebuilt from three gzip files
-- ---------------------------------------------------------------------------

namespace Volatile

/-- Model of fastReadGzipIntoSet: the decompressed stream is presented as the
list of chunks returned by ReadString, each chunk one line (the trailing
newline of a chunk is whitespace and removed by the TrimSpace inside the
normalization, so chunks are modelled without it).  Every nonempty line is
normalized and, when its Go length is within [8,10], inserted into the set
(map-with-unit-values semantics: inserting a present key is a no-op). -/
def fastReadGzipIntoSet : List GoStr → List GoStr → List GoStr
  | [], set => set
  | line :: rest, set =>
      fastReadGzipIntoSet rest
        (if line ≠ [] then
          (if 8 ≤ goLen (normalize line) ∧ goLen (normalize line) ≤ 10 then
            (if normalize line ∈ set then set else normalize line :: set)
          else set)
        else set)

/-- Aggregation step of reloadOnce: newCounts[code]++ once for every
occurrence of code in every per-source set list. -/
def aggregate (sets : List (List GoStr)) (code : GoStr) : Nat :=
  (sets.map fun s => s.count code).sum

/-- The volatile Manager state the claims are about: its counts map,
modelled as a total function (a Go map read yields the zero value 0 for an
absent key). -/
structure Manager where
  counts : GoStr → Nat

/-- Model of the volatile IsValidPromo: normalize, reject lengths outside
[8,10], otherwise test counts[code] >= 2. -/
def Manager.IsValidPromo (m : Manager) (code : GoStr) : Bool :=
  let c := normalize code
  if goLen c < 8 || goLen c > 10 then false
  else decide (2 ≤ m.counts c)

/-- Snapshot returns a copy of the counts map. -/
def Manager.Snapshot (m : Manager) : GoStr → Nat := m.counts

/-- The counts map built by a fully successful load of the three files. -/
def loadedManager (a b c : List GoStr) : Manager :=
  ⟨aggregate [fastReadGzipIntoSet a [], fastReadGzipIntoSet b [],
    fastReadGzipIntoSet c []]⟩

/-- Model of reloadOnce: every file load either succeeds with the file's
lines (some) or fails with an I/O or gzip error (none).  Only when all
three succeed is the counts map replaced by the new aggregate; on any
error the manager is returned unchanged together with the error flag. -/
def reloadOnce (m : Manager) (l1 l2 l3 : Option (List GoStr)) :
    Manager × Bool :=
  match l1, l2, l3 with
  | some a, some b, some c => (loadedManager a b c, false)
  | _, _, _ => (m, true)

end Volatile

-- ---------------------------------------------------------------------------
-- Persistent backend: Manager querying RocksDB column families
-- ---------------------------------------------------------------------------

namespace Rocks

/-- A value stored under a key in a column family: a byte slice. -/
abbrev Val := List Nat

/-- The RocksDB contents relevant to the manager: the column families
file1, file2, file3, each mapping present keys to their stored values. -/
structure Manager where
  file1 : GoStr → Option Val
  file2 : GoStr → Option Val
  file3 : GoStr → Option Val

/-- The column families in the order the query loop probes them. -/
def cfs (m : Manager) : List (GoStr → Option Val) := [m.file1, m.file2, m.file3]

/-- The per-column-family hit test of IsValidPromo.  On a healthy read
GetCF returns no error and a non-nil slice: the stored value when the key
is present, a slice of size 0 when absent.  The source counts a hit when
err == nil && val != nil && val.Size() > 0, i.e. exactly when the key is
present with a non-empty value. -/
def cfHit (part : GoStr → Option Val) (code : GoStr) : Bool :=
  match part code with
  | some v => decide (0 < v.length)
  | none => false

/-- The probing loop of the persistent IsValidPromo: increment cnt on a
hit and return true as soon as cnt >= 2. -/
def loop (parts : List (GoStr → Option Val)) (code : GoStr) (cnt : Nat) : Bool :=
  match parts with
  | [] => false
  | p :: ps =>
      let cnt2 := if cfHit p code then cnt + 1 else cnt
      if 2 ≤ cnt2 then true else loop ps code cnt2

/-- Model of the persistent IsValidPromo: normalize, reject lengths outside
[8,10], then probe file1, file2, file3 in order with early exit at 2 hits. -/
def Manager.IsValidPromo (m : Manager) (code : GoStr) : Bool :=
  let c := normalize code
  if goLen c < 8 || goLen c > 10 then false
  else loop (cfs m) c 0

/-- The probing loop instrumented with the number of GetCF point lookups
it performs (one per column family it visits). -/
def loopCounted (parts : List (GoStr → Option Val)) (code : GoStr)
    (cnt lookups : Nat) : Bool × Nat :=
  match parts with
  | [] => (false, lookups)
  | p :: ps =>
      let cnt2 := if cfHit p code then cnt + 1 else cnt
      if 2 ≤ cnt2 then (true, lookups + 1) else loopCounted ps code cnt2 (lookups + 1)

/-- IsValidPromo instrumented with its number of point lookups. -/
def Manager.IsValidPromoCounted (m : Manager) (code : GoStr) : Bool × Nat :=
  let c := normalize code
  if goLen c < 8 || goLen c > 10 then (false, 0)
  else loopCounted (cfs m) c 0 0

/-- The number of column families in which the (already normalized) code
scores a hit. -/
def hitCount (m : Manager) (code : GoStr) : Nat :=
  (cfs m).countP fun p => cfHit p code

/-- Spec-side definition of the persistent lookup, following the claim
wording: exhaustively count the hits across all three column families and
compare the total with the quorum threshold 2. -/
def Manager.IsValidPromoExhaustive (m : Manager) (code : GoStr) : Bool :=
  let c := normalize code
  if goLen c < 8 || goLen c > 10 then false
  else decide (2 ≤ hitCount m c)

/-- Key-existence test of a column family, ignoring the stored value. -/
def keyHit (part : GoStr → Option Val) (code : GoStr) : Bool :=
  (part code).isSome

/-- The number of column families containing the (already normalized) code
as a key, regardless of the stored value. -/
def keyCount (m : Manager) (code : GoStr) : Nat :=
  (cfs m).countP fun p => keyHit p code

/-- Spec-side definition following the claim wording of C6 and C2:
existence of a key is the only signal consulted, values ignored. -/
def Manager.IsValidPromoKeysOnly (m : Manager) (code : GoStr) : Bool :=
  let c := normalize code
  if goLen c < 8 || goLen c > 10 then false
  else decide (2 ≤ keyCount m c)

/-- A column family holding, as keys, exactly the members of the given
set, each key stored with the empty value (a bare existence marker). -/
def cfOfSetEmptyVals (S : List GoStr) : GoStr → Option Val :=
  fun k => if k ∈ S then some [] else none

/-- A column family holding, as keys, exactly the members of the given
set, each key stored with a non-empty one-byte marker value. -/
def cfOfSetMarkerVals (S : List GoStr) : GoStr → Option Val :=
  fun k => if k ∈ S then some [1] else none

/-- A persistent store whose partitions hold, as keys with empty values,
exactly the per-source sets the volatile backend loads from the three
files. -/
def dbOfLoadedEmptyVals (L1 L2 L3 : List GoStr) : Manager :=
  ⟨cfOfSetEmptyVals (Volatile.fastReadGzipIntoSet L1 []),
   cfOfSetEmptyVals (Volatile.fastReadGzipIntoSet L2 []),
   cfOfSetEmptyVals (Volatile.fastReadGzipIntoSet L3 [])⟩

end Rocks

/-- The number of the three per-source sets containing a code. -/
def setsContaining (S1 S2 S3 : List GoStr) (c : GoStr) : Nat :=
  [S1, S2, S3].countP fun S => decide (c ∈ S)

/-- The number of the three source files containing at least one line that
normalizes to the given code. -/
def sourcesContainingLine (L1 L2 L3 : List GoStr) (c : GoStr) : Nat :=
  [L1, L2, L3].countP fun L => decide (∃ line ∈ L, normalize line = c)

-- ---------------------------------------------------------------------------
-- Character-level lemmas
-- ---------------------------------------------------------------------------

theorem toNat_ofNat_of_valid (n : Nat) (h : n.isValidChar) :
    (Char.ofNat n).toNat = n := by
  have h32 : n < 2 ^ 32 := by
    rcases h with h1 | ⟨_, h2⟩ <;> omega
  simp [Char.ofNat, h, Char.ofNatAux, Char.toNat, UInt32.toNat, BitVec.toNat_ofNat,
    Nat.mod_eq_of_lt h32]

theorem goUpperChar_toNat_of_lower (c : Char) (h1 : 97 ≤ c.toNat)
    (h2 : c.toNat ≤ 122) : (goUpperChar c).toNat = c.toNat - 32 := by
  have hv : (c.toNat - 32).isValidChar := by
    left; omega
  simp only [goUpperChar, if_pos (And.intro h1 h2)]
  exact toNat_ofNat_of_valid _ hv

theorem goUpperChar_of_not_lower (c : Char)
    (h : ¬ (97 ≤ c.toNat ∧ c.toNat ≤ 122)) : goUpperChar c = c := by
  unfold goUpperChar
  split
  · exact absurd (by assumption) h
  · rfl

theorem goUpperChar_idem (c : Char) :
    goUpperChar (goUpperChar c) = goUpperChar c := by
  by_cases h : 97 ≤ c.toNat ∧ c.toNat ≤ 122
  · have ht : (goUpperChar c).toNat = c.toNat - 32 :=
      goUpperChar_toNat_of_lower c h.1 h.2
    apply goUpperChar_of_not_lower
    omega
  · simp only [goUpperChar_of_not_lower c h]

theorem goIsSpace_goUpperChar (c : Char) :
    goIsSpace (goUpperChar c) = goIsSpace c := by
  by_cases h : 97 ≤ c.toNat ∧ c.toNat ≤ 122
  · have ht : (goUpperChar c).toNat = c.toNat - 32 :=
      goUpperChar_toNat_of_lower c h.1 h.2
    simp only [goIsSpace, decide_eq_decide, ht]
    omega
  · rw [goUpperChar_of_not_lower c h]

-- ---------------------------------------------------------------------------
-- Normalization lemmas
-- ---------------------------------------------------------------------------

theorem goToUpper_idem (s : GoStr) : goToUpper (goToUpper s) = goToUpper s := by
  simp only [goToUpper, List.map_map]
  exact List.map_congr_left fun c _ => goUpperChar_idem c

theorem dropWhile_goToUpper (s : GoStr) :
    (goToUpper s).dropWhile goIsSpace = goToUpper (s.dropWhile goIsSpace) := by
  have hcomp : goIsSpace ∘ goUpperChar = goIsSpace := funext goIsSpace_goUpperChar
  simp only [goToUpper, List.dropWhile_map, hcomp]

theorem reverse_goToUpper (s : GoStr) :
    (goToUpper s).reverse = goToUpper s.reverse := by
  simp [goToUpper, List.map_reverse]

theorem goTrimSpace_goToUpper (s : GoStr) :
    goTrimSpace (goToUpper s) = goToUpper (goTrimSpace s) := by
  simp only [goTrimSpace, dropWhile_goToUpper, reverse_goToUpper]

theorem not_of_dropWhile_eq_cons {p : Char → Bool} :
    ∀ {l : GoStr} {c : Char} {t : GoStr}, l.dropWhile p = c :: t → p c = false := by
  intro l
  induction l with
  | nil => intro c t h; simp at h
  | cons x xs ih =>
      intro c t h
      rw [List.dropWhile_cons] at h
      by_cases hx : p x = true
      · rw [if_pos hx] at h
        exact ih h
      · rw [if_neg hx] at h
        cases h
        simpa using hx

theorem dropWhile_goTrimSpace (s : GoStr) :
    (goTrimSpace s).dropWhile goIsSpace = goTrimSpace s := by
  unfold goTrimSpace
  rcases h : ((s.dropWhile goIsSpace).reverse.dropWhile goIsSpace).reverse with _ | ⟨c, t⟩
  · simp
  · -- c is the head of a prefix of dropWhile goIsSpace s, hence not a space
    have hpre : (c :: t) <+: s.dropWhile goIsSpace := by
      rw [← h]
      have hsuf := List.dropWhile_suffix (l := (s.dropWhile goIsSpace).reverse) goIsSpace
      have := hsuf.reverse
      simpa using this
    rcases hpre with ⟨u, hu⟩
    have hc : goIsSpace c = false := by
      apply not_of_dropWhile_eq_cons (l := s) (t := t ++ u)
      rw [← hu]
      simp
    rw [List.dropWhile_cons, hc]
    simp

theorem goTrimSpace_idem (s : GoStr) :
    goTrimSpace (goTrimSpace s) = goTrimSpace s := by
  conv in goTrimSpace (goTrimSpace s) => rw [goTrimSpace]
  rw [dropWhile_goTrimSpace]
  unfold goTrimSpace
  rw [List.reverse_reverse, List.dropWhile_idempotent]

theorem normalize_idem (s : GoStr) : normalize (normalize s) = normalize s := by
  simp only [normalize]
  rw [goTrimSpace_goToUpper (goTrimSpace (goToUpper s)), goTrimSpace_idem,
    ← goTrimSpace_goToUpper (goToUpper s), goToUpper_idem]


-- ---------------------------------------------------------------------------
-- Lemmas about loading and aggregation
-- ---------------------------------------------------------------------------

namespace Volatile

theorem mem_step_set (line : GoStr) (set : List GoStr) (c : GoStr) :
    (c ∈ (if line ≠ [] then
          (if 8 ≤ goLen (normalize line) ∧ goLen (normalize line) ≤ 10 then
            (if normalize line ∈ set then set else normalize line :: set)
          else set)
        else set)) ↔
      c ∈ set ∨ (line ≠ [] ∧ normalize line = c ∧ 8 ≤ goLen c ∧ goLen c ≤ 10) := by
  by_cases hne : line ≠ []
  · by_cases hlen : 8 ≤ goLen (normalize line) ∧ goLen (normalize line) ≤ 10
    · by_cases hmem : normalize line ∈ set
      · rw [if_pos hne, if_pos hlen, if_pos hmem]
        constructor
        · exact Or.inl
        · rintro (h | ⟨_, hn, _⟩)
          · exact h
          · rw [← hn]
            exact hmem
      · rw [if_pos hne, if_pos hlen, if_neg hmem, List.mem_cons]
        constructor
        · rintro (heq | h)
          · subst heq
            exact Or.inr ⟨hne, rfl, hlen⟩
          · exact Or.inl h
        · rintro (h | ⟨_, hn, _⟩)
          · exact Or.inr h
          · exact Or.inl hn.symm
    · rw [if_pos hne, if_neg hlen]
      constructor
      · exact Or.inl
      · rintro (h | ⟨_, hn, hb⟩)
        · exact h
        · rw [hn] at hlen
          exact absurd hb hlen
  · rw [if_neg hne]
    constructor
    · exact Or.inl
    · rintro (h | ⟨hne2, _⟩)
      · exact h
      · exact absurd hne2 hne

theorem mem_fastReadGzipIntoSet (lines : List GoStr) (set : List GoStr) (c : GoStr) :
    c ∈ fastReadGzipIntoSet lines set ↔
      c ∈ set ∨ ∃ line ∈ lines, line ≠ [] ∧ normalize line = c ∧
        8 ≤ goLen c ∧ goLen c ≤ 10 := by
  induction lines generalizing set with
  | nil => simp [fastReadGzipIntoSet]
  | cons line rest ih =>
      rw [fastReadGzipIntoSet, ih, mem_step_set]
      constructor
      · rintro ((h | h) | ⟨l, hl, hp⟩)
        · exact Or.inl h
        · exact Or.inr ⟨line, List.mem_cons_self line rest, h⟩
        · exact Or.inr ⟨l, List.mem_cons_of_mem line hl, hp⟩
      · rintro (h | ⟨l, hl, hp⟩)
        · exact Or.inl (Or.inl h)
        · rcases List.mem_cons.mp hl with heq | hm
          · subst heq
            exact Or.inl (Or.inr hp)
          · exact Or.inr ⟨l, hm, hp⟩

theorem nodup_fastReadGzipIntoSet (lines : List GoStr) (set : List GoStr)
    (h : set.Nodup) : (fastReadGzipIntoSet lines set).Nodup := by
  induction lines generalizing set with
  | nil => exact h
  | cons line rest ih =>
      rw [fastReadGzipIntoSet]
      apply ih
      split
      · split
        · split
          · exact h
          · rename_i hnm
            exact List.nodup_cons.mpr ⟨hnm, h⟩
        · exact h
      · exact h

theorem mem_loaded_props (lines : List GoStr) (c : GoStr)
    (h : c ∈ fastReadGzipIntoSet lines []) :
    normalize c = c ∧ 8 ≤ goLen c ∧ goLen c ≤ 10 := by
  rcases (mem_fastReadGzipIntoSet lines [] c).mp h with h0 | ⟨l, _, _, hlnorm, hlen⟩
  · simp at h0
  · refine ⟨?_, hlen⟩
    rw [← hlnorm, normalize_idem]

theorem count_of_nodup (l : List GoStr) (c : GoStr) (h : l.Nodup) :
    l.count c = if c ∈ l then 1 else 0 := by
  induction l with
  | nil => simp
  | cons x xs ih =>
      have hx : x ∉ xs := (List.nodup_cons.mp h).1
      have hxs := ih (List.nodup_cons.mp h).2
      rw [List.count_cons, hxs]
      by_cases hcx : c = x
      · subst hcx
        simp [hx]
      · have hxc : x ≠ c := fun h2 => hcx h2.symm
        simp [List.mem_cons, hcx, hxc]

theorem count_loaded (lines : List GoStr) (c : GoStr) :
    (fastReadGzipIntoSet lines []).count c =
      if c ∈ fastReadGzipIntoSet lines [] then 1 else 0 :=
  count_of_nodup _ c (nodup_fastReadGzipIntoSet lines [] List.nodup_nil)

theorem aggregate_loaded (a b c : List GoStr) (code : GoStr) :
    aggregate [fastReadGzipIntoSet a [], fastReadGzipIntoSet b [],
        fastReadGzipIntoSet c []] code =
      setsContaining (fastReadGzipIntoSet a []) (fastReadGzipIntoSet b [])
        (fastReadGzipIntoSet c []) code := by
  simp only [aggregate, setsContaining, List.map_cons, List.map_nil, List.sum_cons,
    List.sum_nil, List.countP_cons, List.countP_nil, count_loaded]
  by_cases h1 : code ∈ fastReadGzipIntoSet a [] <;>
    by_cases h2 : code ∈ fastReadGzipIntoSet b [] <;>
      by_cases h3 : code ∈ fastReadGzipIntoSet c [] <;>
        simp [h1, h2, h3]

theorem counts_loadedManager (a b c : List GoStr) (code : GoStr) :
    (loadedManager a b c).counts code =
      setsContaining (fastReadGzipIntoSet a []) (fastReadGzipIntoSet b [])
        (fastReadGzipIntoSet c []) code :=
  aggregate_loaded a b c code

theorem setsContaining_eq_zero_of_bad_len (S1 S2 S3 : List GoStr) (c : GoStr)
    (h1 : ∀ x ∈ S1, 8 ≤ goLen x ∧ goLen x ≤ 10)
    (h2 : ∀ x ∈ S2, 8 ≤ goLen x ∧ goLen x ≤ 10)
    (h3 : ∀ x ∈ S3, 8 ≤ goLen x ∧ goLen x ≤ 10)
    (hc : ¬ (8 ≤ goLen c ∧ goLen c ≤ 10)) :
    setsContaining S1 S2 S3 c = 0 := by
  have n1 : c ∉ S1 := fun hm => hc (h1 c hm)
  have n2 : c ∉ S2 := fun hm => hc (h2 c hm)
  have n3 : c ∉ S3 := fun hm => hc (h3 c hm)
  simp [setsContaining, n1, n2, n3]

theorem isValid_loadedManager (L1 L2 L3 : List GoStr) (c : GoStr) :
    (loadedManager L1 L2 L3).IsValidPromo c =
      decide (2 ≤ setsContaining (fastReadGzipIntoSet L1 [])
        (fastReadGzipIntoSet L2 []) (fastReadGzipIntoSet L3 [])
        (normalize c)) := by
  simp only [Manager.IsValidPromo]
  by_cases hlen : 8 ≤ goLen (normalize c) ∧ goLen (normalize c) ≤ 10
  · rw [if_neg (by simp only [Bool.or_eq_true, decide_eq_true_eq]; omega),
      counts_loadedManager]
  · have h0 := setsContaining_eq_zero_of_bad_len _ _ _ (normalize c)
      (fun x hx => (mem_loaded_props L1 x hx).2)
      (fun x hx => (mem_loaded_props L2 x hx).2)
      (fun x hx => (mem_loaded_props L3 x hx).2) hlen
    rw [if_pos (by simp only [Bool.or_eq_true, decide_eq_true_eq]; omega), h0]
    exact (decide_eq_false (by omega)).symm

end Volatile

-- ---------------------------------------------------------------------------
-- Lemmas about the persistent probing loop
-- ---------------------------------------------------------------------------

namespace Rocks

theorem loop_eq_countP (code : GoStr) :
    ∀ (parts : List (GoStr → Option Val)) (cnt : Nat), cnt < 2 →
      loop parts code cnt =
        decide (2 ≤ cnt + parts.countP fun p => cfHit p code) := by
  intro parts
  induction parts with
  | nil =>
      intro cnt hcnt
      simp only [loop, List.countP_nil]
      rw [decide_eq_false (by omega : ¬ (2 ≤ cnt + 0))]
  | cons p ps ih =>
      intro cnt hcnt
      simp only [loop, List.countP_cons]
      by_cases hp : cfHit p code = true
      · simp only [hp, if_true]
        by_cases h2 : 2 ≤ cnt + 1
        · rw [if_pos h2]
          exact (decide_eq_true (by omega)).symm
        · rw [if_neg h2, ih (cnt + 1) (by omega), decide_eq_decide]
          omega
      · have hp2 : cfHit p code = false := by simpa using hp
        rw [hp2]
        simp only [if_neg Bool.false_ne_true]
        rw [if_neg (by omega : ¬ (2 ≤ cnt)), ih cnt hcnt, decide_eq_decide]
        omega

theorem loopCounted_fst (code : GoStr) :
    ∀ (parts : List (GoStr → Option Val)) (cnt lookups : Nat),
      (loopCounted parts code cnt lookups).1 = loop parts code cnt := by
  intro parts
  induction parts with
  | nil =>
      intro cnt lookups
      rfl
  | cons p ps ih =>
      intro cnt lookups
      simp only [loopCounted, loop]
      by_cases h2 : 2 ≤ (if cfHit p code = true then cnt + 1 else cnt)
      · rw [if_pos h2, if_pos h2]
      · rw [if_neg h2, if_neg h2, ih]

theorem loopCounted_lookups (code : GoStr) :
    ∀ (parts : List (GoStr → Option Val)) (cnt lookups : Nat),
      (loopCounted parts code cnt lookups).2 ≤ lookups + parts.length := by
  intro parts
  induction parts with
  | nil =>
      intro cnt lookups
      simp [loopCounted]
  | cons p ps ih =>
      intro cnt lookups
      simp only [loopCounted, List.length_cons]
      by_cases h2 : 2 ≤ (if cfHit p code = true then cnt + 1 else cnt)
      · rw [if_pos h2]
        omega
      · rw [if_neg h2]
        have := ih (if cfHit p code = true then cnt + 1 else cnt) (lookups + 1)
        omega

end Rocks

-- ---------------------------------------------------------------------------
-- Claim theorems
-- ---------------------------------------------------------------------------

/-- C1: the volatile IsValidPromo(c) is true iff the normalized form of c is
a member of at least 2 of the three per-source sets produced by loading the
three input files; membership in only one source, or none, yields false. -/
theorem C1_volatile_quorum (L1 L2 L3 : List GoStr) (c : GoStr) :
    (Volatile.loadedManager L1 L2 L3).IsValidPromo c =
      decide (2 ≤ setsContaining (Volatile.fastReadGzipIntoSet L1 [])
        (Volatile.fastReadGzipIntoSet L2 []) (Volatile.fastReadGzipIntoSet L3 [])
        (normalize c)) :=
  Volatile.isValid_loadedManager L1 L2 L3 c

/-- C3: if the load of any one of the three sources fails during a reload
cycle, reloadOnce returns the error and does not replace the counts map:
Snapshot after the failed reload equals Snapshot before it, and every
IsValidPromo answer is unchanged. -/
theorem C3_reload_failure (m : Volatile.Manager) (l1 l2 l3 : Option (List GoStr))
    (h : l1 = none ∨ l2 = none ∨ l3 = none) :
    (Volatile.reloadOnce m l1 l2 l3).2 = true ∧
    (∀ c, (Volatile.reloadOnce m l1 l2 l3).1.Snapshot c = m.Snapshot c ∧
       (Volatile.reloadOnce m l1 l2 l3).1.IsValidPromo c = m.IsValidPromo c) := by
  have hm : Volatile.reloadOnce m l1 l2 l3 = (m, true) := by
    rcases l1 with _ | a
    · rfl
    rcases l2 with _ | b
    · rfl
    rcases l3 with _ | c
    · rfl
    rcases h with h | h | h <;> simp at h
  rw [hm]
  exact ⟨rfl, fun c => ⟨rfl, rfl⟩⟩

/-- C3 witness: concrete failed reload (first source unreadable). -/
theorem C3_reload_failure_witness :
    (Volatile.reloadOnce ⟨fun _ => 0⟩ none (some []) (some [])).2 = true :=
  (C3_reload_failure ⟨fun _ => 0⟩ none (some []) (some []) (Or.inl rfl)).1

/-- C4: both backends return plain booleans (the embedding is a pure
function of the state, with no error component); every string whose
normalized form has length outside [8,10] — in particular the empty
string — yields false regardless of the index contents, and strings of
normalized length exactly 8 or 10 pass the length check and are valid
iff they meet the quorum. -/
theorem C4_length_guard :
    (∀ (m : Volatile.Manager) (code : GoStr),
        ¬ (8 ≤ goLen (normalize code) ∧ goLen (normalize code) ≤ 10) →
          m.IsValidPromo code = false) ∧
    (∀ (r : Rocks.Manager) (code : GoStr),
        ¬ (8 ≤ goLen (normalize code) ∧ goLen (normalize code) ≤ 10) →
          r.IsValidPromo code = false) ∧
    (∀ m : Volatile.Manager, m.IsValidPromo [] = false) ∧
    (∀ r : Rocks.Manager, r.IsValidPromo [] = false) ∧
    (∀ (m : Volatile.Manager) (code : GoStr),
        goLen (normalize code) = 8 ∨ goLen (normalize code) = 10 →
          m.IsValidPromo code = decide (2 ≤ m.counts (normalize code))) ∧
    (∀ (r : Rocks.Manager) (code : GoStr),
        goLen (normalize code) = 8 ∨ goLen (normalize code) = 10 →
          r.IsValidPromo code = decide (2 ≤ Rocks.hitCount r (normalize code))) := by
  have hvol : ∀ (m : Volatile.Manager) (code : GoStr),
      ¬ (8 ≤ goLen (normalize code) ∧ goLen (normalize code) ≤ 10) →
        m.IsValidPromo code = false := by
    intro m code hc
    simp only [Volatile.Manager.IsValidPromo]
    rw [if_pos (by simp only [Bool.or_eq_true, decide_eq_true_eq]; omega)]
  have hroc : ∀ (r : Rocks.Manager) (code : GoStr),
      ¬ (8 ≤ goLen (normalize code) ∧ goLen (normalize code) ≤ 10) →
        r.IsValidPromo code = false := by
    intro r code hc
    simp only [Rocks.Manager.IsValidPromo]
    rw [if_pos (by simp only [Bool.or_eq_true, decide_eq_true_eq]; omega)]
  refine ⟨hvol, hroc, fun m => hvol m [] (by decide), fun r => hroc r [] (by decide),
    ?_, ?_⟩
  · intro m code hc
    simp only [Volatile.Manager.IsValidPromo]
    rw [if_neg (by simp only [Bool.or_eq_true, decide_eq_true_eq]; omega)]
  · intro r code hc
    simp only [Rocks.Manager.IsValidPromo]
    rw [if_neg (by simp only [Bool.or_eq_true, decide_eq_true_eq]; omega)]
    rw [Rocks.loop_eq_countP (normalize code) (Rocks.cfs r) 0 (by omega),
      decide_eq_decide, Rocks.hitCount]
    omega

/-- C4 witness: a length-7 code is rejected by an index that would accept
anything, and a length-8 code reduces to the quorum test. -/
theorem C4_length_guard_witness :
    (Volatile.Manager.mk fun _ => 3).IsValidPromo ("ABC1234".data) = false ∧
    (Volatile.Manager.mk fun _ => 3).IsValidPromo ("ABCD1234".data) =
      decide (2 ≤ (Volatile.Manager.mk fun _ => 3).counts
        (normalize ("ABCD1234".data))) :=
  ⟨C4_length_guard.1 ⟨fun _ => 3⟩ ("ABC1234".data) (by decide),
   C4_length_guard.2.2.2.2.1 ⟨fun _ => 3⟩ ("ABCD1234".data) (Or.inl (by decide))⟩

/-- C5: normalization is idempotent; IsValidPromo depends only on the
normalized form of its argument, so the concrete pair of raw codes below
always agrees; and the same normalization runs at ingestion time: a
nonempty line of a file is ingested exactly as its normalize image,
subject to the length filter. -/
theorem C5_normalization :
    (∀ x : GoStr, normalize (normalize x) = normalize x) ∧
    (∀ (m : Volatile.Manager) (a b : GoStr), normalize a = normalize b →
        m.IsValidPromo a = m.IsValidPromo b) ∧
    (∀ m : Volatile.Manager,
        m.IsValidPromo (" abc12345 ".data) = m.IsValidPromo ("ABC12345".data)) ∧
    (∀ (lines : List GoStr) (line : GoStr), line ∈ lines → line ≠ [] →
        (normalize line ∈ Volatile.fastReadGzipIntoSet lines [] ↔
          8 ≤ goLen (normalize line) ∧ goLen (normalize line) ≤ 10)) := by
  have hdep : ∀ (m : Volatile.Manager) (a b : GoStr), normalize a = normalize b →
      m.IsValidPromo a = m.IsValidPromo b := by
    intro m a b hab
    simp only [Volatile.Manager.IsValidPromo, hab]
  refine ⟨normalize_idem, hdep, fun m => hdep m _ _ (by decide), ?_⟩
  intro lines line hmem hne
  rw [Volatile.mem_fastReadGzipIntoSet]
  constructor
  · rintro (h0 | ⟨l, _, _, _, hlen⟩)
    · simp at h0
    · exact hlen
  · intro hlen
    exact Or.inr ⟨line, hmem, hne, rfl, hlen⟩

/-- C5 witness: query invariance under normalization at a concrete state
and pair of raw codes. -/
theorem C5_normalization_witness :
    (Volatile.Manager.mk fun _ => 2).IsValidPromo ("zzzz9999 ".data) =
      (Volatile.Manager.mk fun _ => 2).IsValidPromo ("ZZZZ9999".data) :=
  C5_normalization.2.1 ⟨fun _ => 2⟩ _ _ (by decide)

-- ---------------------------------------------------------------------------
-- Further shared lemmas
-- ---------------------------------------------------------------------------

namespace Rocks

theorem cfHit_cfOfSetMarkerVals (S : List GoStr) (k : GoStr) :
    cfHit (cfOfSetMarkerVals S) k = decide (k ∈ S) := by
  by_cases h : k ∈ S <;> simp [cfHit, cfOfSetMarkerVals, h]

theorem isValid_eq_exhaustive (r : Manager) (code : GoStr) :
    r.IsValidPromo code = r.IsValidPromoExhaustive code := by
  simp only [Manager.IsValidPromo, Manager.IsValidPromoExhaustive]
  by_cases hg : goLen (normalize code) < 8 ∨ goLen (normalize code) > 10
  · rw [if_pos (by simp only [Bool.or_eq_true, decide_eq_true_eq]; omega),
      if_pos (by simp only [Bool.or_eq_true, decide_eq_true_eq]; omega)]
  · rw [if_neg (by simp only [Bool.or_eq_true, decide_eq_true_eq]; omega),
      if_neg (by simp only [Bool.or_eq_true, decide_eq_true_eq]; omega),
      loop_eq_countP _ _ 0 (by omega), decide_eq_decide]
    simp only [hitCount]
    omega

end Rocks

namespace Volatile

theorem mem_loaded_iff_line (L : List GoStr) (c : GoStr) (h8 : 8 ≤ goLen c)
    (h10 : goLen c ≤ 10) :
    c ∈ fastReadGzipIntoSet L [] ↔ ∃ line ∈ L, normalize line = c := by
  rw [mem_fastReadGzipIntoSet]
  simp only [List.not_mem_nil, false_or]
  constructor
  · rintro ⟨l, hl, _, hn, _⟩
    exact ⟨l, hl, hn⟩
  · rintro ⟨l, hl, hn⟩
    have hlne : l ≠ [] := by
      intro h0
      subst h0
      rw [show normalize [] = ([] : GoStr) from rfl] at hn
      rw [← hn] at h8
      simp [goLen] at h8
    exact ⟨l, hl, hlne, hn, h8, h10⟩

end Volatile

/-- C7: the short-circuiting probe of file1, file2, file3 agrees with the
exhaustive count of the membership hits across all three partitions
compared with the quorum threshold 2; returning early never changes the
answer, and at most 3 point lookups are performed per query. -/
theorem C7_short_circuit_refinement (r : Rocks.Manager) (code : GoStr) :
    r.IsValidPromo code = r.IsValidPromoExhaustive code ∧
    (r.IsValidPromoCounted code).1 = r.IsValidPromo code ∧
    (r.IsValidPromoCounted code).2 ≤ 3 := by
  refine ⟨Rocks.isValid_eq_exhaustive r code, ?_, ?_⟩
  · simp only [Rocks.Manager.IsValidPromo, Rocks.Manager.IsValidPromoCounted]
    by_cases hg : goLen (normalize code) < 8 ∨ goLen (normalize code) > 10
    · rw [if_pos (by simp only [Bool.or_eq_true, decide_eq_true_eq]; omega),
        if_pos (by simp only [Bool.or_eq_true, decide_eq_true_eq]; omega)]
    · rw [if_neg (by simp only [Bool.or_eq_true, decide_eq_true_eq]; omega),
        if_neg (by simp only [Bool.or_eq_true, decide_eq_true_eq]; omega),
        Rocks.loopCounted_fst]
  · simp only [Rocks.Manager.IsValidPromoCounted]
    by_cases hg : goLen (normalize code) < 8 ∨ goLen (normalize code) > 10
    · rw [if_pos (by simp only [Bool.or_eq_true, decide_eq_true_eq]; omega)]
      simp
    · rw [if_neg (by simp only [Bool.or_eq_true, decide_eq_true_eq]; omega)]
      have h := Rocks.loopCounted_lookups (normalize code) (Rocks.cfs r) 0 0
      simpa [Rocks.cfs] using h

/-- C6 counterexample: a store holding the code as a key in two partitions
but with empty stored values.  Under the claim (key existence is the only
signal, values irrelevant) the code is valid; IsValidPromo returns false,
because its hit test requires val.Size() > 0. -/
theorem C6_counterexample :
    Rocks.Manager.IsValidPromo
        ⟨Rocks.cfOfSetEmptyVals [("ABCD1234".data)],
         Rocks.cfOfSetEmptyVals [("ABCD1234".data)], fun _ => none⟩
        ("ABCD1234".data) = false ∧
    Rocks.Manager.IsValidPromoKeysOnly
        ⟨Rocks.cfOfSetEmptyVals [("ABCD1234".data)],
         Rocks.cfOfSetEmptyVals [("ABCD1234".data)], fun _ => none⟩
        ("ABCD1234".data) = true :=
  ⟨by decide, by decide⟩

/-- C6 amended: a partition lookup counts a source toward the quorum
exactly when the normalized code is present as a key with a non-empty
stored value, and the result depends only on which partitions score such
a hit. -/
theorem C6_hit_requires_value (r r2 : Rocks.Manager) (code : GoStr)
    (h1 : Rocks.cfHit r.file1 (normalize code) = Rocks.cfHit r2.file1 (normalize code))
    (h2 : Rocks.cfHit r.file2 (normalize code) = Rocks.cfHit r2.file2 (normalize code))
    (h3 : Rocks.cfHit r.file3 (normalize code) = Rocks.cfHit r2.file3 (normalize code)) :
    r.IsValidPromo code = r2.IsValidPromo code ∧
    (∀ (part : GoStr → Option Rocks.Val) (k : GoStr),
        Rocks.cfHit part k = true ↔ ∃ v, part k = some v ∧ v ≠ []) := by
  constructor
  · rw [Rocks.isValid_eq_exhaustive, Rocks.isValid_eq_exhaustive]
    simp only [Rocks.Manager.IsValidPromoExhaustive, Rocks.hitCount, Rocks.cfs,
      List.countP_cons, List.countP_nil, h1, h2, h3]
  · intro part k
    unfold Rocks.cfHit
    rcases h : part k with _ | v
    · simp
    · simp [List.length_pos]

/-- C6 witness: a store with no keys and a store whose keys all carry
empty values have the same hit pattern and answer identically. -/
theorem C6_hit_requires_value_witness :
    Rocks.Manager.IsValidPromo ⟨fun _ => none, fun _ => none, fun _ => none⟩
        ("ABCD1234".data) =
      Rocks.Manager.IsValidPromo ⟨fun _ => some [], fun _ => some [], fun _ => some []⟩
        ("ABCD1234".data) :=
  (C6_hit_requires_value _ _ ("ABCD1234".data) (by decide) (by decide) (by decide)).1

/-- C2 counterexample: partitions holding, as keys, exactly the per-source
sets loaded from the three files, but with empty stored values: the
volatile backend validates the code while the persistent backend rejects
it, although the keys agree. -/
theorem C2_counterexample :
    (Volatile.loadedManager [("abcd1234".data)] [("abcd1234".data)] []).IsValidPromo
        ("abcd1234".data) = true ∧
    (Rocks.dbOfLoadedEmptyVals [("abcd1234".data)] [("abcd1234".data)] []).IsValidPromo
        ("abcd1234".data) = false :=
  ⟨by decide, by decide⟩

/-- C2 amended: if every partition holds, as keys each with a non-empty
stored value, exactly the corresponding per-source set loaded by the
volatile backend, then the two backends return the same boolean for every
code. -/
theorem C2_backend_equivalence (L1 L2 L3 : List GoStr) (r : Rocks.Manager)
    (h1 : ∀ k, Rocks.cfHit r.file1 k =
        decide (k ∈ Volatile.fastReadGzipIntoSet L1 []))
    (h2 : ∀ k, Rocks.cfHit r.file2 k =
        decide (k ∈ Volatile.fastReadGzipIntoSet L2 []))
    (h3 : ∀ k, Rocks.cfHit r.file3 k =
        decide (k ∈ Volatile.fastReadGzipIntoSet L3 []))
    (code : GoStr) :
    r.IsValidPromo code = (Volatile.loadedManager L1 L2 L3).IsValidPromo code := by
  rw [Rocks.isValid_eq_exhaustive]
  simp only [Rocks.Manager.IsValidPromoExhaustive, Volatile.Manager.IsValidPromo,
    Rocks.hitCount, Rocks.cfs, List.countP_cons, List.countP_nil, h1, h2, h3,
    Volatile.counts_loadedManager, setsContaining]

/-- C2 witness: a store with non-empty marker values whose keys are the
loaded sets agrees with the volatile backend at a concrete code. -/
theorem C2_backend_equivalence_witness :
    Rocks.Manager.IsValidPromo
        ⟨Rocks.cfOfSetMarkerVals (Volatile.fastReadGzipIntoSet [("abcd1234".data)] []),
         Rocks.cfOfSetMarkerVals (Volatile.fastReadGzipIntoSet [("abcd1234".data)] []),
         Rocks.cfOfSetMarkerVals (Volatile.fastReadGzipIntoSet [] [])⟩
        ("ABCD1234".data) =
      (Volatile.loadedManager [("abcd1234".data)] [("abcd1234".data)] []).IsValidPromo
        ("ABCD1234".data) :=
  C2_backend_equivalence [("abcd1234".data)] [("abcd1234".data)] [] _
    (fun k => Rocks.cfHit_cfOfSetMarkerVals
      (Volatile.fastReadGzipIntoSet [("abcd1234".data)] []) k)
    (fun k => Rocks.cfHit_cfOfSetMarkerVals
      (Volatile.fastReadGzipIntoSet [("abcd1234".data)] []) k)
    (fun k => Rocks.cfHit_cfOfSetMarkerVals
      (Volatile.fastReadGzipIntoSet [] []) k) ("ABCD1234".data)

/-- C8 counterexample: the statement quantified over every code fails for a
code outside the length bounds: a length-7 code occurring in one file has
aggregated count 0, yet one distinct source contains a line normalizing to
it. -/
theorem C8_counterexample :
    Volatile.aggregate
        [Volatile.fastReadGzipIntoSet [("ABC1234".data)] [],
         Volatile.fastReadGzipIntoSet [] [], Volatile.fastReadGzipIntoSet [] []]
        ("ABC1234".data) = 0 ∧
    sourcesContainingLine [("ABC1234".data)] [] [] ("ABC1234".data) = 1 :=
  ⟨by decide, by decide⟩

/-- C8 amended: for every code within the length bounds [8,10], the
aggregated count equals the number of distinct sources whose file contains
at least one line normalizing to that code — never the total number of
occurrences — so a code occurring many times in only one file still fails
the quorum. -/
theorem C8_per_source_dedup (L1 L2 L3 : List GoStr) (c : GoStr)
    (h8 : 8 ≤ goLen c) (h10 : goLen c ≤ 10) :
    Volatile.aggregate
        [Volatile.fastReadGzipIntoSet L1 [], Volatile.fastReadGzipIntoSet L2 [],
         Volatile.fastReadGzipIntoSet L3 []] c = sourcesContainingLine L1 L2 L3 c := by
  rw [Volatile.aggregate_loaded]
  have e1 := Volatile.mem_loaded_iff_line L1 c h8 h10
  have e2 := Volatile.mem_loaded_iff_line L2 c h8 h10
  have e3 := Volatile.mem_loaded_iff_line L3 c h8 h10
  simp only [setsContaining, sourcesContainingLine, List.countP_cons, List.countP_nil]
  rw [decide_eq_decide.mpr e1, decide_eq_decide.mpr e2, decide_eq_decide.mpr e3]

/-- C8 witness: a code occurring twice in one file (in two spellings that
normalize alike) and once in another file counts 2 sources, not 3
occurrences. -/
theorem C8_per_source_dedup_witness :
    Volatile.aggregate
        [Volatile.fastReadGzipIntoSet [("abcd1234".data), ("ABCD1234".data)] [],
         Volatile.fastReadGzipIntoSet [("abcd1234".data)] [],
         Volatile.fastReadGzipIntoSet [] []] ("ABCD1234".data) =
      sourcesContainingLine [("abcd1234".data), ("ABCD1234".data)]
        [("abcd1234".data)] [] ("ABCD1234".data) :=
  C8_per_source_dedup _ _ _ _ (by decide) (by decide)

/-- C10: invariant of every published generation: a key with positive
count is a normalized code of byte length within [8,10], and its count is
at most the number of source files 3, so Snapshot never returns an entry
with count 0 or above 3. -/
theorem C10_generation_invariant (L1 L2 L3 : List GoStr) (c : GoStr)
    (h : 1 ≤ (Volatile.loadedManager L1 L2 L3).Snapshot c) :
    normalize c = c ∧ 8 ≤ goLen c ∧ goLen c ≤ 10 ∧
      (Volatile.loadedManager L1 L2 L3).Snapshot c ≤ 3 := by
  simp only [Volatile.Manager.Snapshot] at h ⊢
  rw [Volatile.counts_loadedManager] at h ⊢
  have hmem : c ∈ Volatile.fastReadGzipIntoSet L1 [] ∨
      c ∈ Volatile.fastReadGzipIntoSet L2 [] ∨
      c ∈ Volatile.fastReadGzipIntoSet L3 [] := by
    by_contra hno
    push_neg at hno
    have h0 : setsContaining (Volatile.fastReadGzipIntoSet L1 [])
        (Volatile.fastReadGzipIntoSet L2 [])
        (Volatile.fastReadGzipIntoSet L3 []) c = 0 := by
      simp [setsContaining, hno.1, hno.2.1, hno.2.2]
    omega
  have props : normalize c = c ∧ 8 ≤ goLen c ∧ goLen c ≤ 10 := by
    rcases hmem with hm | hm | hm
    · exact Volatile.mem_loaded_props L1 c hm
    · exact Volatile.mem_loaded_props L2 c hm
    · exact Volatile.mem_loaded_props L3 c hm
  refine ⟨props.1, props.2.1, props.2.2, ?_⟩
  simp only [setsContaining]
  exact le_trans (List.countP_le_length _) (by simp)

/-- C10 witness: a concrete generation entry. -/
theorem C10_generation_invariant_witness :
    normalize ("ABCD1234".data) = ("ABCD1234".data) ∧
      8 ≤ goLen ("ABCD1234".data) ∧ goLen ("ABCD1234".data) ≤ 10 ∧
      (Volatile.loadedManager [("abcd1234".data)] [("abcd1234".data)] []).Snapshot
        ("ABCD1234".data) ≤ 3 :=
  C10_generation_invariant [("abcd1234".data)] [("abcd1234".data)] []
    ("ABCD1234".data) (by decide)

end Coupons
